import Mathlib

/-!
Verification of the record-filtering pipeline of `ulp.cpp` and the auxiliary
single-threaded email filter `filter.cpp`.

Strings are embedded as `List Char`.  `std::unordered_set` values are embedded
as lists; only membership is ever observed, so the container choice is
irrelevant.  The fixed regular expressions of the source (`advancedEmailRegex`,
`advancedUrlRegex`, the phone regex) are embedded as executable matchers that
implement exactly the shape those patterns describe over ASCII; the
user-supplied `custom_filter` regex is kept abstract as an uninterpreted search
function passed to `processLine`.  C++ `int` is 32-bit: `std::stoi` throws
`std::out_of_range` above `2147483647`, which is modelled by `Except`.
-/

namespace Ulp

/-- `trim` from ulp.cpp: strip the characters of `" \t\r\n"` from both ends. -/
def isSpaceChar (c : Char) : Bool :=
  c = ' ' || c = '\t' || c = '\r' || c = '\n'

def trim (s : List Char) : List Char :=
  ((s.dropWhile isSpaceChar).reverse.dropWhile isSpaceChar).reverse

/-- `toLower` from ulp.cpp: `::tolower` on each char (ASCII). -/
def toLower (s : List Char) : List Char :=
  s.map Char.toLower

/-- First position at which `delim` occurs in `s` (`std::string::find`),
for a non-empty `delim`. -/
def findSub : List Char → List Char → Option Nat
  | s, d =>
    if d.isPrefixOf s then some 0
    else
      match s with
      | [] => none
      | _ :: t => (findSub t d).map (· + 1)

def splitAux (delim : List Char) : Nat → List Char → List (List Char)
  | 0, s => [s]
  | fuel + 1, s =>
    match findSub s delim with
    | none => [s]
    | some p => s.take p :: splitAux delim fuel (s.drop (p + delim.length))

/-- `split` from ulp.cpp.  On an empty delimiter the C++ loop never
terminates (`find("", start) = start` forever); that configuration is modelled
as the single-token result, and no claim depends on it. -/
def split (s delim : List Char) : List (List Char) :=
  if delim = [] then [s] else splitAux delim (s.length + 1) s

/-- `join` from ulp.cpp: concatenate with `delim` between elements. -/
def join : List (List Char) → List Char → List Char
  | [], _ => []
  | [p], _ => p
  | p :: q :: rest, d => p ++ d ++ join (q :: rest) d

structure Config where
  separator : List Char
  format : List Char
  convert_format : List Char
  email_remove : List (List Char)
  email_contains : List (List Char)
  url_remove : List (List Char)
  url_contains : List (List Char)
  custom_filter : List Char

/-- `\w` of the email/url regexes: `[A-Za-z0-9_]`. -/
def isWordChar (c : Char) : Bool :=
  c.isAlpha || c.isDigit || c = '_'

/-- The character class `[\w\.-]` of `advancedEmailRegex`. -/
def isEmailChar (c : Char) : Bool :=
  isWordChar c || c = '.' || c = '-'

/-- Full match of the domain half `[\w\.-]+\.[a-zA-Z]{2,}` of
`advancedEmailRegex`.  The TLD part is letter-only, hence dot-free, so in any
matching decomposition the separating dot is the last dot of the string. -/
def domainPartOk (d : List Char) : Bool :=
  let t := (d.reverse.takeWhile (fun c => c != '.')).reverse
  let a := d.take (d.length - t.length - 1)
  decide (t.length < d.length) && decide (a ≠ []) && a.all isEmailChar &&
    decide (2 ≤ t.length) && t.all Char.isAlpha

/-- `isValidEmail` from ulp.cpp: `std::regex_match` against
`([\w\.-]+)@([\w\.-]+\.[a-zA-Z]{2,})`.  Neither character class contains `@`,
so the `@` of the pattern is the unique `@` of a matching string: the part
before the first `@` must be the local part, the part after it the domain
(whose own characters are checked to exclude any further `@`). -/
def isValidEmail (s : List Char) : Bool :=
  if (s.dropWhile (fun c => c != '@')).head? = some '@' then
    decide (s.takeWhile (fun c => c != '@') ≠ []) &&
      (s.takeWhile (fun c => c != '@')).all isEmailChar &&
      domainPartOk (s.dropWhile (fun c => c != '@')).tail
  else false

/-- `isPhoneNumber` from ulp.cpp: `std::regex_match` against `^\+?\d{6,}$`.
`\d` cannot match `+`, so a leading `+` is consumed by `\+?` exactly when
present. -/
def isPhoneNumber (s : List Char) : Bool :=
  let t := if s.head? = some '+' then s.tail else s
  decide (6 ≤ t.length) && t.all Char.isDigit

/-- `extractEmailDomain` from ulp.cpp: lowercased substring after the first
`@` (`email.find('@')`), empty when there is no `@`. -/
def extractEmailDomain (email : List Char) : List Char :=
  if email.dropWhile (fun c => c != '@') = [] then []
  else toLower (email.dropWhile (fun c => c != '@')).tail

/-- `domainMatches` from ulp.cpp: exact equality, or suffix at a label
boundary.  The inner `domain.size() == pattern.size()` disjunct of the source
is kept although it is unreachable under `pattern.size() < domain.size()`. -/
def domainMatches (domain pat : List Char) : Bool :=
  if domain = pat then true
  else if pat.length < domain.length ∧
          domain.drop (domain.length - pat.length) = pat ∧
          (domain.length = pat.length ∨
            domain[domain.length - pat.length - 1]? = some '.') then
    true
  else false

/-- `checkDomain` from ulp.cpp. -/
def checkDomain (domain : List Char) (removeSet containSet : List (List Char)) :
    Bool :=
  if removeSet.any (fun r => domainMatches domain r) then false
  else if containSet = [] then true
  else containSet.any (fun c => domainMatches domain c)

/-! ### The URL regex `(https?://)?((?:[\w-]+\.)+[a-zA-Z]{2,})(:\d+)?(/[^\s\r\n]*)?`

`extractUrlDomain` does `std::regex_search` and returns the lowercased second
capture (the host).  ECMAScript semantics: the match starts at the leftmost
position where any match exists; at that position the optional scheme is taken
when it is literally present (if the scheme is present but no host follows it,
no alternative match starts at that position, because `https` / `http` is then
followed by `:`, never by `.`); the `(?:[\w-]+\.)+` repetition is taken with
the largest count that still lets `[a-zA-Z]{2,}` match, and each `[\w-]+` must
run exactly to the next dot, so the repetition boundaries are deterministic;
the trailing `(:\d+)?(/…)?` groups are optional and never affect the host
capture. -/

/-- The character class `[\w-]` of the URL host labels. -/
def isHostChar (c : Char) : Bool :=
  isWordChar c || c = '-'

/-- One `[\w-]+\.` repetition at the head of `s`: number of consumed
characters, `none` when the head does not have the shape `label '.'`. -/
def labelStep (s : List Char) : Option Nat :=
  let k := (s.takeWhile isHostChar).length
  if 0 < k ∧ s[k]? = some '.' then some (k + 1) else none

/-- Consumed-length positions after 1, 2, … repetitions of `[\w-]+\.` at the
head of `s`, in increasing order.  Fuel keeps the recursion structural; every
repetition consumes at least two characters, so `s.length` fuel suffices. -/
def repEndsAux : Nat → List Char → List Nat
  | 0, _ => []
  | fuel + 1, s =>
    match labelStep s with
    | none => []
    | some d => d :: (repEndsAux fuel (s.drop d)).map (· + d)

def repEnds (s : List Char) : List Nat :=
  repEndsAux (s.length + 1) s

/-- Length of the maximal `[a-zA-Z]` run at the head of `s`. -/
def alphaRunLen (s : List Char) : Nat :=
  (s.takeWhile Char.isAlpha).length

/-- Greedy match of the whole host group at the head of `s`: the largest
repetition count whose position is followed by an alpha run of length ≥ 2
wins (`repEnds` is increasing, so `getLast?` picks it), and the capture
extends through that maximal alpha run. -/
def hostGreedy (s : List Char) : Option (List Char) :=
  ((repEnds s).filter
    (fun p => decide (2 ≤ alphaRunLen (s.drop p)))).getLast?.map
      (fun p => s.take (p + alphaRunLen (s.drop p)))

/-- Match of the (scheme? host) part starting exactly at the head of `s`,
returning the host capture.  When a scheme is literally present but no host
follows it, no schemeless match starts at this position either (the would-be
first label `https` / `http` is followed by `:`, not `.`), so the simple
if-chain agrees with the backtracking semantics. -/
def tryMatchAt (s : List Char) : Option (List Char) :=
  if ("https://".data).isPrefixOf s then hostGreedy (s.drop 8)
  else if ("http://".data).isPrefixOf s then hostGreedy (s.drop 7)
  else hostGreedy s

/-- Leftmost-match scan of `std::regex_search`: try each start position from
the left. -/
def findHost : List Char → Option (List Char)
  | [] => none
  | c :: rest =>
    match tryMatchAt (c :: rest) with
    | some h => some h
    | none => findHost rest

/-- `extractUrlDomain` from ulp.cpp: lowercased host capture of the first
match of `advancedUrlRegex`, empty when nothing in the string matches
(`match.size() >= 3` always holds on a successful search: the pattern has four
groups). -/
def extractUrlDomain (url : List Char) : List Char :=
  match findHost url with
  | some h => toLower h
  | none => []

/-! ### Field extraction and output building of `processLine` -/

/-- The `Parse based on input format` block of `processLine`: the extracted
`(url, login, pass)` fields, `none` when the line is rejected for having too
few tokens or an unrecognised `format` (in which case `valid` stays false). -/
def parseFields (cfg : Config) (tokens : List (List Char)) :
    Option (List Char × List Char × List Char) :=
  if cfg.format = "url:email:pass".data then
    if tokens.length < 3 then none
    else
      some (trim (join (tokens.take (tokens.length - 2)) cfg.separator),
            trim (tokens.getD (tokens.length - 2) []),
            trim (tokens.getD (tokens.length - 1) []))
  else if cfg.format = "email:pass".data then
    if tokens.length < 2 then none
    else some ([], trim (tokens.getD 0 []), trim (tokens.getD 1 []))
  else none

/-- Value of an all-digit token (what `std::stoi` parses). -/
def digitsToNat (s : List Char) : Nat :=
  s.foldl (fun acc c => acc * 10 + (c.toNat - 48)) 0

/-- `std::stoi` on an all-digit token: 32-bit `int` result, and
`std::out_of_range` is thrown above `INT_MAX = 2147483647`. -/
def stoiDigits (s : List Char) : Except Unit Int :=
  if digitsToNat s ≤ 2147483647 then Except.ok (digitsToNat s : Int)
  else Except.error ()

/-- The numeric `convert_format` loop: `idx = stoi(idxStr) - 1`, keep
`trim(tokens[idx])` when `0 ≤ idx < tokens.size()`. -/
def selectParts (tokens : List (List Char)) :
    List (List Char) → Except Unit (List (List Char))
  | [] => Except.ok []
  | idxStr :: rest =>
    match stoiDigits idxStr with
    | Except.error e => Except.error e
    | Except.ok v =>
      match selectParts tokens rest with
      | Except.error e => Except.error e
      | Except.ok parts =>
        Except.ok
          (if 0 ≤ v - 1 ∧ v - 1 < (tokens.length : Int) then
            trim (tokens.getD (v - 1).toNat []) :: parts
          else parts)

/-- The `Build output based on convert_format` block of `processLine`
(`idxTokens = split(convert_format, separator)`, `isNumericFormat` holds when
it is non-empty — `split` never returns an empty list — and every token is a
non-empty digit string). -/
def buildOutput (cfg : Config) (line : List Char) (tokens : List (List Char))
    (login pass : List Char) : Except Unit (List Char) :=
  if (!(split cfg.convert_format cfg.separator).isEmpty &&
      (split cfg.convert_format cfg.separator).all
        (fun s => !s.isEmpty && s.all Char.isDigit)) then
    match selectParts tokens (split cfg.convert_format cfg.separator) with
    | Except.error e => Except.error e
    | Except.ok parts => Except.ok (join parts cfg.separator)
  else if cfg.convert_format = "email:pass".data ∧
      cfg.format = "url:email:pass".data then
    Except.ok (login ++ cfg.separator ++ pass)
  else if cfg.format = "email:pass".data then
    if cfg.convert_format = "email".data then Except.ok login
    else if cfg.convert_format = "pass".data then Except.ok pass
    else Except.ok line
  else Except.ok line

/-- `processLine` from ulp.cpp.  `customSearch pat line` stands for
`std::regex_search(line, std::regex(pat, icase))`; the user-supplied pattern
is kept abstract.  `Except.error` models an exception escaping `processLine`
(`std::stoi` overflow in the numeric conversion). -/
def processLine (cfg : Config) (customSearch : List Char → List Char → Bool)
    (line : List Char) : Except Unit (List Char) :=
  if line = [] then Except.ok []
  else
    match parseFields cfg (split line cfg.separator) with
    | none => Except.ok []
    | some (url, login, pass) =>
      if isValidEmail login = false ∨ isPhoneNumber login = true then
        Except.ok []
      else if checkDomain (extractEmailDomain login)
          cfg.email_remove cfg.email_contains = false then
        Except.ok []
      else if ((cfg.url_remove ≠ [] ∨ cfg.url_contains ≠ []) ∧ url ≠ []) ∧
          checkDomain (extractUrlDomain url)
            cfg.url_remove cfg.url_contains = false then
        Except.ok []
      else if cfg.custom_filter ≠ [] ∧
          customSearch cfg.custom_filter line = false then
        Except.ok []
      else buildOutput cfg line (split line cfg.separator) login pass

/-! ### The worker / deduplication / per-file pipeline

The observable contents of the output file are modelled per event trace: an
event `(w, line)` is worker `w` taking `line` from the input queue (each input
line is popped by exactly one worker).  `processLine` and the thread-local set
involve no shared state, and the global-set check-and-insert happens inside
`duplicate_mutex`, so every interleaving of the real program is one of these
traces.  An `Except.error` from `processLine` is an exception escaping a
worker thread, which terminates the process: no further output is produced. -/

structure FileState where
  globalDups : List (List Char)
  locals : Nat → List (List Char)
  outs : List (List Char)

/-- The body of the per-line loop of `worker`. -/
def fileStep (cfg : Config) (customSearch : List Char → List Char → Bool)
    (st : FileState) (ev : Nat × List Char) : Except Unit FileState :=
  match processLine cfg customSearch ev.2 with
  | Except.error e => Except.error e
  | Except.ok processed =>
    if processed = [] then Except.ok st
    else if processed ∈ st.locals ev.1 then Except.ok st
    else
      let locals' := fun w => if w = ev.1 then processed :: st.locals ev.1
        else st.locals w
      if processed ∈ st.globalDups then
        Except.ok { st with locals := locals' }
      else
        Except.ok { globalDups := processed :: st.globalDups,
                    locals := locals',
                    outs := st.outs ++ [processed] }

/-- Run a trace of events; the boolean records whether an exception
terminated the run. -/
def runEvents (cfg : Config) (customSearch : List Char → List Char → Bool) :
    List (Nat × List Char) → FileState → FileState × Bool
  | [], st => (st, false)
  | ev :: rest, st =>
    match fileStep cfg customSearch st ev with
    | Except.error _ => (st, true)
    | Except.ok st' => runEvents cfg customSearch rest st'

def initFileState : FileState :=
  { globalDups := [], locals := fun _ => [], outs := [] }

/-- The lines pushed to the output queue while one input file is processed:
`global_duplicates` is cleared and the workers (with their thread-local sets)
are recreated at the start of the file. -/
def processFile (cfg : Config) (customSearch : List Char → List Char → Bool)
    (events : List (Nat × List Char)) : List (List Char) :=
  (runEvents cfg customSearch events initFileState).1.outs

/-- One whole run: the writer appends across files; the duplicate state is
reset per file.  A crash stops the run. -/
def runFiles (cfg : Config) (customSearch : List Char → List Char → Bool) :
    List (List (Nat × List Char)) → List (List Char) → List (List Char)
  | [], acc => acc
  | f :: rest, acc =>
    match runEvents cfg customSearch f initFileState with
    | (st, true) => acc ++ st.outs
    | (st, false) => runFiles cfg customSearch rest (acc ++ st.outs)

def run (cfg : Config) (customSearch : List Char → List Char → Bool)
    (files : List (List (Nat × List Char))) : List (List Char) :=
  runFiles cfg customSearch files []

/-- Results of `processLine` are compared in concrete evaluations. -/
instance : DecidableEq (Except Unit (List Char))
  | Except.ok x, Except.ok y =>
    if h : x = y then .isTrue (by rw [h])
    else .isFalse (fun hc => h (Except.ok.inj hc))
  | Except.ok _, Except.error _ => .isFalse (fun hc => Except.noConfusion hc)
  | Except.error _, Except.ok _ => .isFalse (fun hc => Except.noConfusion hc)
  | Except.error x, Except.error y => .isTrue (by cases x; cases y; rfl)

/-- A trivial stand-in for the custom-filter regex search in concrete runs
whose `custom_filter` is empty (it is then never consulted). -/
def noSearch : List Char → List Char → Bool := fun _ _ => false

def baseConfig : Config :=
  { separator := [], format := [], convert_format := [], email_remove := [],
    email_contains := [], url_remove := [], url_contains := [],
    custom_filter := [] }

def cfgEmailPass : Config :=
  { baseConfig with separator := ":".data, format := "email:pass".data }

def cfgUrlEmailPass : Config :=
  { baseConfig with separator := ":".data, format := "url:email:pass".data }

/-- `format=email:pass` with the overflowing numeric `convert_format`
`9999999999` (a pure-digit index above `INT_MAX`). -/
def cfgConvOverflow : Config :=
  { cfgEmailPass with convert_format := "9999999999".data }

/-- `format=url:email:pass` with numeric `convert_format` `2:3`. -/
def cfgConvCols : Config :=
  { cfgUrlEmailPass with convert_format := "2:3".data }

/-! ### Specification-side definitions (the claims' own wording) -/

/-- The substring of `s` after its last `@` (the claim's description of the
email-domain computation). -/
def afterLastAt (s : List Char) : List Char :=
  (s.reverse.takeWhile (fun c => c != '@')).reverse

/-- The claim's reading of the `url:email:pass` extraction: `pass` and
`login` trimmed, `url` the re-join of all earlier tokens (with no trim). -/
def specFieldsUEP (tokens : List (List Char)) (sep : List Char) :
    List Char × List Char × List Char :=
  (join (tokens.take (tokens.length - 2)) sep,
   trim (tokens.getD (tokens.length - 2) []),
   trim (tokens.getD (tokens.length - 1) []))

/-- As `specFieldsUEP`, but with the re-joined url trimmed — what the code
computes. -/
def specFieldsUEPTrimmed (tokens : List (List Char)) (sep : List Char) :
    List Char × List Char × List Char :=
  (trim (join (tokens.take (tokens.length - 2)) sep),
   trim (tokens.getD (tokens.length - 2) []),
   trim (tokens.getD (tokens.length - 1) []))

/-- The claim's description of numeric conversion: the trimmed tokens at the
listed 1-based indices, in order, out-of-range indices skipped. -/
def specSelected (tokens : List (List Char)) :
    List (List Char) → List (List Char)
  | [] => []
  | t :: rest =>
    if 1 ≤ digitsToNat t ∧ digitsToNat t ≤ tokens.length then
      trim (tokens.getD (digitsToNat t - 1) []) :: specSelected tokens rest
    else specSelected tokens rest

/-- Split at the dots (spec-side view of the host shape). -/
def splitOnDot : List Char → List (List Char)
  | [] => [[]]
  | c :: rest =>
    if c = '.' then [] :: splitOnDot rest
    else
      match splitOnDot rest with
      | [] => [[c]]
      | seg :: segs => (c :: seg) :: segs

/-- Inverse of `splitOnDot`: re-join segments with dots. -/
def joinDots : List (List Char) → List Char
  | [] => []
  | [l] => l
  | l :: l' :: rest => l ++ '.' :: joinDots (l' :: rest)

/-- Full match of the host group `(?:[\w-]+\.)+[a-zA-Z]{2,}`: at least two
dot-separated segments, every early segment a non-empty `[\w-]+` label, the
final segment a 2+ letter TLD. -/
def hostShape (h : List Char) : Bool :=
  decide (2 ≤ (splitOnDot h).length) &&
    (splitOnDot h).dropLast.all (fun l => decide (l ≠ []) && l.all isHostChar) &&
    decide (2 ≤ ((splitOnDot h).getLastD []).length) &&
    ((splitOnDot h).getLastD []).all Char.isAlpha

/-- `[^\s\r\n]` over ASCII: not a whitespace character. -/
def nonSpaceChar (c : Char) : Bool :=
  !(isSpaceChar c || c = '\x0b' || c = '\x0c')

/-- Full match of the optional-path tail `(/[^\s\r\n]*)?`. -/
def pathOptShape : List Char → Bool
  | [] => true
  | '/' :: rest => rest.all nonSpaceChar
  | _ => false

/-- Full match of the tail `(:\d+)?(/[^\s\r\n]*)?`.  The port digits cannot
stop early: the character after a shorter digit run would be a digit, which
can start neither a path nor the end. -/
def portPathShape : List Char → Bool
  | [] => true
  | ':' :: rest =>
    decide (rest.takeWhile Char.isDigit ≠ []) &&
      pathOptShape (rest.drop (rest.takeWhile Char.isDigit).length)
  | '/' :: rest => rest.all nonSpaceChar
  | _ => false

def hostCharOrDot (c : Char) : Bool :=
  isHostChar c || c = '.'

/-- Full match of `host (:port)? (/path)?`.  The host must be exactly the
maximal run of `[\w-.]` characters: a shorter host candidate would be
followed by another such character, which can start neither `:port` nor
`/path` nor the end. -/
def hostPortPath (s : List Char) : Bool :=
  hostShape (s.takeWhile hostCharOrDot) &&
    portPathShape (s.drop (s.takeWhile hostCharOrDot).length)

/-- Full match of the whole URL pattern
`(https?://)?((?:[\w-]+\.)+[a-zA-Z]{2,})(:\d+)?(/[^\s\r\n]*)?` — the claim's
"URL shape".  A string starting with a scheme cannot also match schemeless
(its fifth or sixth character is `:`, excluded from host labels), so the
three cases are mutually exclusive. -/
def urlShape (s : List Char) : Bool :=
  (if ("https://".data).isPrefixOf s then hostPortPath (s.drop 8) else false) ||
    (if ("http://".data).isPrefixOf s then hostPortPath (s.drop 7) else false) ||
    hostPortPath s

/-- Decidable form of "no substring of `u` matches the URL shape": every
prefix of every suffix fails `urlShape`. -/
def noUrlShapeSub (u : List Char) : Bool :=
  u.tails.all (fun t => t.inits.all (fun sub => !urlShape sub))

end Ulp

/-! ### The auxiliary single-threaded email filter, filter.cpp -/

namespace EmailFilter

/-- `toLower` from filter.cpp (`std::tolower` per char, ASCII). -/
def toLower (s : List Char) : List Char :=
  s.map Char.toLower

/-- `extractDomain` from filter.cpp: lowercased part after the first `@`;
empty when there is no `@` or nothing follows it
(`atPos == npos || atPos + 1 >= email.size()`). -/
def extractDomain (email : List Char) : List Char :=
  if email.dropWhile (fun c => c != '@') = [] then []
  else if (email.dropWhile (fun c => c != '@')).tail = [] then []
  else toLower (email.dropWhile (fun c => c != '@')).tail

/-- `containsPattern` from filter.cpp: some pattern occurs as a substring of
`text` (`text.find(pattern) != npos`). -/
def containsPattern (text : List Char) (patterns : List (List Char)) : Bool :=
  patterns.any (fun p => (Ulp.findSub text p).isSome)

/-- The per-line filter of `processEmailFile`: empty lines and lines with an
empty extracted domain are dropped; mode `r` keeps lines whose domain contains
no pattern, mode `c` keeps lines whose domain contains some pattern. -/
def keepLine (filterSet : List (List Char)) (mode : Char)
    (line : List Char) : Bool :=
  if line = [] then false
  else if extractDomain line = [] then false
  else if mode = 'r' then !containsPattern (extractDomain line) filterSet
  else if mode = 'c' then containsPattern (extractDomain line) filterSet
  else true

/-- `processEmailFile` from filter.cpp: the lines appended to the output
file. -/
def processEmailFile (filterSet : List (List Char)) (mode : Char)
    (lines : List (List Char)) : List (List Char) :=
  lines.filter (keepLine filterSet mode)

end EmailFilter

namespace Ulp

theorem domainMatches_iff (d p : List Char) :
    domainMatches d p = true ↔ (d = p ∨ ∃ pre, d = pre ++ '.' :: p) := by
  constructor
  · intro h
    unfold domainMatches at h
    by_cases hdp : d = p
    · exact Or.inl hdp
    · rw [if_neg hdp] at h
      by_cases hc : p.length < d.length ∧
          d.drop (d.length - p.length) = p ∧
          (d.length = p.length ∨ d[d.length - p.length - 1]? = some '.')
      · obtain ⟨h1, h2, h3⟩ := hc
        have hk : 1 ≤ d.length - p.length := by omega
        rcases h3 with h3 | h3
        · omega
        · refine Or.inr ⟨d.take (d.length - p.length - 1), ?_⟩
          have hsucc : d.length - p.length = (d.length - p.length - 1) + 1 := by
            omega
          have htake : d.take (d.length - p.length) =
              d.take (d.length - p.length - 1) ++ ['.'] := by
            have hts := List.take_succ (l := d) (n := d.length - p.length - 1)
            rw [← hsucc] at hts
            rw [hts, h3]
            rfl
          calc d = d.take (d.length - p.length) ++ d.drop (d.length - p.length) := by
                rw [List.take_append_drop]
            _ = (d.take (d.length - p.length - 1) ++ ['.']) ++ p := by rw [htake, h2]
            _ = d.take (d.length - p.length - 1) ++ '.' :: p := by simp
      · rw [if_neg hc] at h
        exact absurd h (by simp)
  · intro h
    rcases h with h | ⟨pre, h⟩
    · unfold domainMatches
      rw [if_pos h]
    · unfold domainMatches
      by_cases hdp : d = p
      · rw [if_pos hdp]
      · rw [if_neg hdp]
        have hlen : d.length = pre.length + 1 + p.length := by
          subst h; simp; omega
        have h1 : p.length < d.length := by omega
        have hpre : d.length - p.length = pre.length + 1 := by omega
        have h2 : d.drop (d.length - p.length) = p := by
          rw [hpre, h]
          have : pre ++ '.' :: p = (pre ++ ['.']) ++ p := by simp
          rw [this]
          have hlen2 : (pre ++ ['.']).length = pre.length + 1 := by simp
          rw [← hlen2, List.drop_left]
        have h3 : d[d.length - p.length - 1]? = some '.' := by
          rw [hpre, h]
          simp only [Nat.add_sub_cancel]
          have : pre ++ '.' :: p = (pre ++ ['.']) ++ p := by simp
          rw [this, List.getElem?_append_left (by simp)]
          rw [List.getElem?_append_right (by simp)]
          simp
        rw [if_pos ⟨h1, h2, Or.inr h3⟩]

/-- C2: `domainMatches(domain, pattern)` is true iff the strings are equal or
`pattern` is a suffix of `domain` preceded in `domain` by `'.'`; in
particular `mail.example.com` matches `example.com` but not `xample.com`. -/
theorem claim_C2_domainMatches_spec :
    (∀ d p : List Char,
      domainMatches d p = true ↔ (d = p ∨ ∃ pre, d = pre ++ '.' :: p)) ∧
    domainMatches ("mail.example.com".data) ("example.com".data) = true ∧
    domainMatches ("mail.example.com".data) ("xample.com".data) = false := by
  refine ⟨domainMatches_iff, by decide, by decide⟩

/-- C3: `checkDomain` rejects on any `removeSet` match regardless of
`containSet`; otherwise it accepts when `containSet` is empty, and with a
non-empty `containSet` it accepts iff some contained pattern matches. -/
theorem claim_C3_checkDomain_spec :
    ∀ (d : List Char) (rs cs : List (List Char)),
      checkDomain d rs cs = true ↔
        ((∀ r ∈ rs, domainMatches d r = false) ∧
          (cs = [] ∨ ∃ c ∈ cs, domainMatches d c = true)) := by
  intro d rs cs
  unfold checkDomain
  by_cases hr : rs.any (fun r => domainMatches d r)
  · rw [if_pos hr]
    simp only [List.any_eq_true] at hr
    obtain ⟨r, hrmem, hrm⟩ := hr
    constructor
    · intro h; exact absurd h (by simp)
    · rintro ⟨hall, -⟩
      have := hall r hrmem
      rw [this] at hrm
      exact absurd hrm (by simp)
  · rw [if_neg hr]
    simp only [List.any_eq_true, not_exists, not_and] at hr
    have hall : ∀ r ∈ rs, domainMatches d r = false := by
      intro r hrm
      have := hr r hrm
      exact Bool.eq_false_iff.mpr this
    by_cases hc : cs = []
    · rw [if_pos hc]
      exact ⟨fun _ => ⟨hall, Or.inl hc⟩, fun _ => rfl⟩
    · rw [if_neg hc]
      simp only [List.any_eq_true]
      constructor
      · intro h; exact ⟨hall, Or.inr h⟩
      · rintro ⟨-, h | h⟩
        · exact absurd h hc
        · exact h

end Ulp

namespace Ulp

/-! ### Deduplication invariants -/

theorem fileStep_inv {cfg : Config} {search : List Char → List Char → Bool}
    {st st' : FileState} {ev : Nat × List Char}
    (h : fileStep cfg search st ev = Except.ok st')
    (h1 : st.outs.Nodup) (h2 : ∀ o ∈ st.outs, o ∈ st.globalDups) :
    st'.outs.Nodup ∧ (∀ o ∈ st'.outs, o ∈ st'.globalDups) := by
  unfold fileStep at h
  cases hp : processLine cfg search ev.2 with
  | error e => rw [hp] at h; exact absurd h (by simp)
  | ok processed =>
    rw [hp] at h
    simp only at h
    by_cases hemp : processed = []
    · rw [if_pos hemp] at h
      cases h; exact ⟨h1, h2⟩
    · rw [if_neg hemp] at h
      by_cases hloc : processed ∈ st.locals ev.1
      · rw [if_pos hloc] at h
        cases h; exact ⟨h1, h2⟩
      · rw [if_neg hloc] at h
        by_cases hglob : processed ∈ st.globalDups
        · rw [if_pos hglob] at h
          cases h
          exact ⟨h1, h2⟩
        · rw [if_neg hglob] at h
          cases h
          constructor
          · simp only [List.nodup_append, List.nodup_cons]
            refine ⟨h1, by simp, ?_⟩
            intro o ho
            simp only [List.mem_singleton]
            intro hoe
            exact hglob (hoe ▸ h2 o ho)
          · intro o ho
            simp only [List.mem_append, List.mem_singleton] at ho
            rcases ho with ho | ho
            · exact List.mem_cons_of_mem _ (h2 o ho)
            · exact ho ▸ List.mem_cons_self _ _

theorem runEvents_inv (cfg : Config) (search : List Char → List Char → Bool) :
    ∀ (evs : List (Nat × List Char)) (st : FileState),
      st.outs.Nodup → (∀ o ∈ st.outs, o ∈ st.globalDups) →
      (runEvents cfg search evs st).1.outs.Nodup ∧
        (∀ o ∈ (runEvents cfg search evs st).1.outs,
          o ∈ (runEvents cfg search evs st).1.globalDups) := by
  intro evs
  induction evs with
  | nil => intro st h1 h2; exact ⟨h1, h2⟩
  | cons ev rest ih =>
    intro st h1 h2
    unfold runEvents
    cases hs : fileStep cfg search st ev with
    | error e => exact ⟨h1, h2⟩
    | ok st' =>
      obtain ⟨h1', h2'⟩ := fileStep_inv hs h1 h2
      exact ih st' h1' h2'

/-- C4: every line pushed to the output queue in the processing of one input
file is pushed only after a successful insertion into the cleared-per-file
global duplicate set, so the outputs of one file are pairwise distinct —
for every event trace (any partition of the lines among workers, in any
interleaving order). -/
theorem claim_C4_per_file_dedup (cfg : Config)
    (search : List Char → List Char → Bool)
    (events : List (Nat × List Char)) :
    (processFile cfg search events).Nodup :=
  (runEvents_inv cfg search events initFileState (by simp [initFileState])
    (by simp [initFileState])).1

theorem count_le_one_of_nodup {l : List (List Char)} (h : l.Nodup)
    (a : List Char) : l.count a ≤ 1 := by
  induction l with
  | nil => simp
  | cons b t ih =>
    rw [List.nodup_cons] at h
    rw [List.count_cons]
    by_cases hab : a = b
    · subst hab
      have hz : t.count a = 0 := List.count_eq_zero.mpr h.1
      simp [hz]
    · have hba : (b == a) = false := by
        simp only [beq_eq_false_iff_ne, ne_eq]
        exact fun hc => hab hc.symm
      simp only [hba, Bool.false_eq_true, if_false]
      simpa using ih h.2

theorem runFiles_count (cfg : Config) (search : List Char → List Char → Bool)
    (out : List Char) :
    ∀ (files : List (List (Nat × List Char))) (acc : List (List Char)),
      (runFiles cfg search files acc).count out ≤
        acc.count out + files.length := by
  intro files
  induction files with
  | nil => intro acc; simp [runFiles]
  | cons f rest ih =>
    intro acc
    have hnd : (runEvents cfg search f initFileState).1.outs.Nodup :=
      claim_C4_per_file_dedup cfg search f
    have hle1 : ((runEvents cfg search f initFileState).1.outs).count out ≤ 1 :=
      count_le_one_of_nodup hnd out
    unfold runFiles
    cases hr : runEvents cfg search f initFileState with
    | mk st crashed =>
      have hstout : st.outs.count out ≤ 1 := by
        have : st = (runEvents cfg search f initFileState).1 := by rw [hr]
        rw [this]; exact hle1
      cases crashed with
      | true =>
        simp only [List.count_append, List.length_cons]
        omega
      | false =>
        simp only [List.length_cons]
        calc (runFiles cfg search rest (acc ++ st.outs)).count out
            ≤ (acc ++ st.outs).count out + rest.length := ih (acc ++ st.outs)
          _ = acc.count out + st.outs.count out + rest.length := by
              rw [List.count_append]
          _ ≤ acc.count out + (rest.length + 1) := by omega

/-- C1 (amended): output lines are distinct within the contribution of each
input file, but the global duplicate set is cleared per file, so across a
whole run a byte content can recur — at most once per input file. -/
theorem claim_C1_amended_dedup_per_file (cfg : Config)
    (search : List Char → List Char → Bool)
    (files : List (List (Nat × List Char))) (out : List Char) :
    (run cfg search files).count out ≤ files.length := by
  have := runFiles_count cfg search out files []
  simpa [run] using this

/-- C1 fails as stated: the same accepted record in two different input files
is written twice in one run. -/
theorem claim_C1_counterexample :
    ¬ (run cfgEmailPass noSearch
        [[(0, "a@b.cd:pw".data)], [(0, "a@b.cd:pw".data)]]).Nodup := by
  decide

end Ulp

namespace Ulp

/-! ### takeWhile / dropWhile helpers -/

theorem takeWhile_append_all {p : Char → Bool} {xs : List Char}
    (ys : List Char) (h : ∀ x ∈ xs, p x = true) :
    (xs ++ ys).takeWhile p = xs ++ ys.takeWhile p := by
  induction xs with
  | nil => rfl
  | cons x xs ih =>
    have hx : p x = true := h x (List.mem_cons_self x xs)
    simp only [List.cons_append, List.takeWhile_cons, hx, if_true]
    rw [ih (fun a ha => h a (List.mem_cons_of_mem x ha))]

theorem dropWhile_append_all {p : Char → Bool} {xs : List Char}
    (ys : List Char) (h : ∀ x ∈ xs, p x = true) :
    (xs ++ ys).dropWhile p = ys.dropWhile p := by
  induction xs with
  | nil => rfl
  | cons x xs ih =>
    have hx : p x = true := h x (List.mem_cons_self x xs)
    simp only [List.cons_append, List.dropWhile_cons, hx, if_true]
    exact ih (fun a ha => h a (List.mem_cons_of_mem x ha))

theorem takeWhile_cons_false {p : Char → Bool} {c : Char} (ys : List Char)
    (h : p c = false) : (c :: ys).takeWhile p = [] := by
  simp [List.takeWhile_cons, h]

theorem dropWhile_cons_false {p : Char → Bool} {c : Char} (ys : List Char)
    (h : p c = false) : (c :: ys).dropWhile p = c :: ys := by
  simp [List.dropWhile_cons, h]

theorem dropWhile_head_false {p : Char → Bool} :
    ∀ (s : List Char) {c : Char} {rest : List Char},
      s.dropWhile p = c :: rest → p c = false := by
  intro s
  induction s with
  | nil => intro c rest h; exact absurd h (by simp)
  | cons x xs ih =>
    intro c rest h
    rw [List.dropWhile_cons] at h
    by_cases hx : p x = true
    · rw [if_pos hx] at h; exact ih h
    · rw [if_neg hx] at h
      cases h
      exact Bool.eq_false_iff.mpr hx

/-! ### Structure of valid emails -/

theorem domainPartOk_decomp {d : List Char} (h : domainPartOk d = true) :
    ∃ a t, d = a ++ '.' :: t ∧ a ≠ [] ∧ (∀ c ∈ a, isEmailChar c = true) ∧
      2 ≤ t.length ∧ ∀ c ∈ t, c.isAlpha = true := by
  unfold domainPartOk at h
  simp only [Bool.and_eq_true, decide_eq_true_eq, List.all_eq_true] at h
  obtain ⟨⟨⟨⟨hlen, hane⟩, hac⟩, htlen⟩, hta⟩ := h
  have hsplit := List.takeWhile_append_dropWhile
    (p := fun c => c != '.') (l := d.reverse)
  cases hdw : d.reverse.dropWhile (fun c => c != '.') with
  | nil =>
    exfalso
    rw [hdw, List.append_nil] at hsplit
    have hlen2 : ((d.reverse.takeWhile (fun c => c != '.')).reverse).length
        = d.length := by rw [hsplit]; simp
    omega
  | cons c rest =>
    have hcdot : c = '.' := by
      have hpc := dropWhile_head_false _ hdw
      simpa using hpc
    subst hcdot
    rw [hdw] at hsplit
    -- d.reverse = tw ++ '.' :: rest, so d = rest.reverse ++ '.' :: tw.reverse
    set tw := d.reverse.takeWhile (fun c => c != '.') with htw
    have hd : d = rest.reverse ++ '.' :: tw.reverse := by
      have h2 : (tw ++ '.' :: rest).reverse = d := by
        rw [hsplit, List.reverse_reverse]
      rw [← h2, List.reverse_append, List.reverse_cons, List.append_assoc]
      rfl
    have hlens := congrArg List.length hd
    simp only [List.length_append, List.length_cons, List.length_reverse]
      at hlens
    have ha : d.take (d.length - tw.reverse.length - 1) = rest.reverse := by
      have hridx : d.length - tw.reverse.length - 1 = rest.reverse.length := by
        simp only [List.length_reverse]
        omega
      rw [hridx]
      conv_lhs => rw [hd]
      exact List.take_left _ _
    rw [ha] at hane hac
    exact ⟨rest.reverse, tw.reverse, hd, hane, hac, htlen, hta⟩

theorem isValidEmail_decomp {s : List Char} (h : isValidEmail s = true) :
    ∃ l domain, s = l ++ '@' :: domain ∧ l ≠ [] ∧
      (∀ c ∈ l, ¬ (c = '@')) ∧ (∀ c ∈ domain, ¬ (c = '@')) ∧
      domainPartOk domain = true := by
  unfold isValidEmail at h
  by_cases hh : (s.dropWhile (fun c => c != '@')).head? = some '@'
  · rw [if_pos hh] at h
    simp only [Bool.and_eq_true, decide_eq_true_eq, List.all_eq_true] at h
    obtain ⟨⟨hne, _⟩, hdom⟩ := h
    cases hdw : s.dropWhile (fun c => c != '@') with
    | nil => rw [hdw] at hh; exact absurd hh (by simp)
    | cons c rest =>
      have hc : c = '@' := by rw [hdw] at hh; simpa using hh
      subst hc
      have hs : s = s.takeWhile (fun c => c != '@') ++ '@' :: rest := by
        conv_lhs => rw [← List.takeWhile_append_dropWhile
          (p := fun c => c != '@') (l := s)]
        rw [hdw]
      have hdomtail : (s.dropWhile (fun c => c != '@')).tail = rest := by
        rw [hdw]
        rfl
      rw [hdomtail] at hdom
      refine ⟨s.takeWhile (fun c => c != '@'), rest, hs, hne, ?_, ?_, hdom⟩
      · intro c hc
        have := List.mem_takeWhile_imp hc
        simpa using this
      · -- no '@' in the domain part, by its character classes
        obtain ⟨a, t, hdec, -, hachars, -, htchars⟩ := domainPartOk_decomp hdom
        intro c hcmem hceq
        subst hceq
        rw [hdec] at hcmem
        rcases List.mem_append.mp hcmem with hca | hct
        · exact absurd (hachars _ hca) (by decide)
        · rcases List.mem_cons.mp hct with heq | htl
          · exact absurd heq (by decide)
          · exact absurd (htchars _ htl) (by decide)
  · rw [if_neg hh] at h
    exact absurd h (by simp)

end Ulp

namespace Ulp

/-- Every invocation of `processLine` either rejects (empty result) or ends in
the output-building step, having passed the email validity, phone, and filter
checks. -/
theorem processLine_shape (cfg : Config)
    (search : List Char → List Char → Bool) (line : List Char) :
    processLine cfg search line = Except.ok [] ∨
    ∃ url login pass,
      parseFields cfg (split line cfg.separator) = some (url, login, pass) ∧
      isValidEmail login = true ∧ isPhoneNumber login = false ∧
      processLine cfg search line =
        buildOutput cfg line (split line cfg.separator) login pass := by
  unfold processLine
  split
  · exact Or.inl rfl
  · split
    · exact Or.inl rfl
    · rename_i url login pass heq
      split
      · exact Or.inl rfl
      · rename_i h1
        have hv : isValidEmail login = true := by
          cases hvv : isValidEmail login
          · exact absurd (Or.inl hvv) h1
          · rfl
        have hph : isPhoneNumber login = false := by
          cases hpp : isPhoneNumber login
          · rfl
          · exact absurd (Or.inr hpp) h1
        split
        · exact Or.inl rfl
        · split
          · exact Or.inl rfl
          · split
            · exact Or.inl rfl
            · exact Or.inr ⟨url, login, pass, heq, hv, hph, rfl⟩

/-- C5: `processLine` accepts only records whose extracted login passes
`isValidEmail` and fails `isPhoneNumber`; the phone pattern is an optional
`+` followed by at least six digits and nothing else; the line
`+15551234567:pw` is rejected under `format = email:pass`. -/
theorem claim_C5_login_checks :
    (∀ (cfg : Config) (search : List Char → List Char → Bool)
        (line out : List Char),
      processLine cfg search line = Except.ok out → out ≠ [] →
      ∃ url login pass,
        parseFields cfg (split line cfg.separator) = some (url, login, pass) ∧
        isValidEmail login = true ∧ isPhoneNumber login = false) ∧
    (∀ s : List Char, isPhoneNumber s = true ↔
      ∃ t, (s = t ∨ s = '+' :: t) ∧ 6 ≤ t.length ∧ ∀ c ∈ t, c.isDigit = true) ∧
    processLine cfgEmailPass noSearch ("+15551234567:pw".data) = Except.ok [] := by
  refine ⟨?_, ?_, by decide⟩
  · intro cfg search line out hok hne
    rcases processLine_shape cfg search line with h | ⟨u, l, p, hpf, hv, hph, -⟩
    · rw [h] at hok
      cases hok
      exact absurd rfl hne
    · exact ⟨u, l, p, hpf, hv, hph⟩
  · intro s
    unfold isPhoneNumber
    by_cases hh : s.head? = some '+'
    · rw [if_pos hh]
      cases s with
      | nil => exact absurd hh (by simp)
      | cons c cs =>
        have hc : c = '+' := by simpa using hh
        subst hc
        simp only [List.tail_cons, Bool.and_eq_true, decide_eq_true_eq,
          List.all_eq_true]
        constructor
        · rintro ⟨hlen, hdig⟩
          exact ⟨cs, Or.inr rfl, hlen, hdig⟩
        · rintro ⟨t, ht | ht, hlen, hdig⟩
          · -- '+' :: cs = t, but t is all digits and '+' is not a digit
            exfalso
            have : '+' ∈ t := ht ▸ List.mem_cons_self _ _
            exact absurd (hdig _ this) (by decide)
          · cases ht
            exact ⟨hlen, hdig⟩
    · rw [if_neg hh]
      simp only [Bool.and_eq_true, decide_eq_true_eq, List.all_eq_true]
      constructor
      · rintro ⟨hlen, hdig⟩
        exact ⟨s, Or.inl rfl, hlen, hdig⟩
      · rintro ⟨t, ht | ht, hlen, hdig⟩
        · cases ht; exact ⟨hlen, hdig⟩
        · exfalso
          apply hh
          rw [ht]
          rfl

theorem claim_C5_witness :
    ∃ url login pass,
      parseFields cfgEmailPass
        (split ("user@ok.com:pw".data) cfgEmailPass.separator) =
          some (url, login, pass) ∧
      isValidEmail login = true ∧ isPhoneNumber login = false :=
  claim_C5_login_checks.1 cfgEmailPass noSearch ("user@ok.com:pw".data)
    ("user@ok.com:pw".data) (by decide) (by decide)

/-- C8: for records that reach the domain-filtering step (fields parsed,
login a valid email), the tested email domain is the lowercased substring of
the login after its last `@` — a valid login has exactly one `@`, so the
first-`@` computation of `extractEmailDomain` agrees — and the record is
rejected when `checkDomain` rejects that domain. -/
theorem claim_C8_email_domain :
    ∀ (cfg : Config) (search : List Char → List Char → Bool)
      (line url login pass : List Char),
      parseFields cfg (split line cfg.separator) = some (url, login, pass) →
      isValidEmail login = true →
      extractEmailDomain login = toLower (afterLastAt login) ∧
      (checkDomain (extractEmailDomain login)
          cfg.email_remove cfg.email_contains = false →
        processLine cfg search line = Except.ok []) := by
  intro cfg search line url login pass hpf hv
  constructor
  · obtain ⟨l, domain, hsl, -, hlf, hdf, -⟩ := isValidEmail_decomp hv
    have hlfb : ∀ c ∈ l, (c != '@') = true := by
      intro c hc
      simpa using hlf c hc
    have hdw : login.dropWhile (fun c => c != '@') = '@' :: domain := by
      rw [hsl, dropWhile_append_all _ hlfb, dropWhile_cons_false _ (by simp)]
    have he : extractEmailDomain login = toLower domain := by
      unfold extractEmailDomain
      rw [hdw]
      rw [if_neg (by simp)]
      rfl
    have ha : afterLastAt login = domain := by
      unfold afterLastAt
      rw [hsl, List.reverse_append, List.reverse_cons, List.append_assoc]
      have hdfb : ∀ c ∈ domain.reverse, (c != '@') = true := by
        intro c hc
        simpa using hdf c (List.mem_reverse.mp hc)
      rw [takeWhile_append_all _ hdfb, List.singleton_append,
        takeWhile_cons_false _ (by simp)]
      simp
    rw [he, ha]
  · intro hcd
    unfold processLine
    split
    · rfl
    · split
      · rfl
      · rename_i url' login' pass' heq
        rw [hpf] at heq
        simp only [Option.some.injEq, Prod.mk.injEq] at heq
        obtain ⟨rfl, rfl, rfl⟩ := heq
        split
        · rfl
        · rfl

theorem claim_C8_witness :
    extractEmailDomain ("bob@mail.ru".data) =
      toLower (afterLastAt ("bob@mail.ru".data)) ∧
    processLine { cfgEmailPass with email_remove := ["ru".data] } noSearch
      ("bob@mail.ru:pw".data) = Except.ok [] := by
  have h := claim_C8_email_domain
    { cfgEmailPass with email_remove := ["ru".data] } noSearch
    ("bob@mail.ru:pw".data) [] ("bob@mail.ru".data) ("pw".data)
    (by decide) (by decide)
  exact ⟨h.1, h.2 (by decide)⟩

end Ulp

namespace Ulp

/-- C6 fails as stated: the code trims the re-joined url field, so a leading
or trailing whitespace around the early tokens is not preserved. -/
theorem claim_C6_counterexample :
    parseFields cfgUrlEmailPass
      (split (" a :b@c.de:pw".data) cfgUrlEmailPass.separator) ≠
    some (specFieldsUEP
      (split (" a :b@c.de:pw".data) cfgUrlEmailPass.separator)
      cfgUrlEmailPass.separator) := by
  decide

/-- C6 (amended): with `format = url:email:pass`, a line splitting into fewer
than 3 tokens is rejected; otherwise `pass` is the trimmed last token,
`login` the trimmed second-to-last, and `url` is all earlier tokens re-joined
with the separator and then trimmed, so separators embedded inside the URL are
preserved. -/
theorem claim_C6_amended_field_extraction :
    ∀ (cfg : Config) (line : List Char),
      cfg.format = "url:email:pass".data →
      ((split line cfg.separator).length < 3 →
        ∀ search, processLine cfg search line = Except.ok []) ∧
      (3 ≤ (split line cfg.separator).length →
        parseFields cfg (split line cfg.separator) =
          some (specFieldsUEPTrimmed (split line cfg.separator)
            cfg.separator)) := by
  intro cfg line hfmt
  constructor
  · intro hlt search
    have hpf : parseFields cfg (split line cfg.separator) = none := by
      unfold parseFields
      rw [if_pos hfmt, if_pos hlt]
    unfold processLine
    split
    · rfl
    · split
      · rfl
      · rename_i url' login' pass' heq
        rw [hpf] at heq
        cases heq
  · intro hge
    unfold parseFields
    rw [if_pos hfmt, if_neg (by omega)]
    rfl

theorem claim_C6_witness :
    parseFields cfgUrlEmailPass
      (split ("http://x.com:8080:u@y.zz:pw".data) cfgUrlEmailPass.separator) =
      some (specFieldsUEPTrimmed
        (split ("http://x.com:8080:u@y.zz:pw".data) cfgUrlEmailPass.separator)
        cfgUrlEmailPass.separator) ∧
    processLine cfgUrlEmailPass noSearch ("a:b".data) = Except.ok [] :=
  ⟨(claim_C6_amended_field_extraction cfgUrlEmailPass
      ("http://x.com:8080:u@y.zz:pw".data) (by decide)).2 (by decide),
   (claim_C6_amended_field_extraction cfgUrlEmailPass ("a:b".data)
      (by decide)).1 (by decide) noSearch⟩

end Ulp

namespace Ulp

theorem split_ne_nil (s d : List Char) : split s d ≠ [] := by
  unfold split
  by_cases hd : d = []
  · rw [if_pos hd]; simp
  · rw [if_neg hd]
    cases hfuel : s.length + 1 with
    | zero => exact absurd hfuel (by omega)
    | succ n =>
      unfold splitAux
      cases findSub s d with
      | none => simp
      | some p => simp

theorem selectParts_spec (tokens : List (List Char)) :
    ∀ idxTokens : List (List Char),
      (∀ t ∈ idxTokens, digitsToNat t ≤ 2147483647) →
      selectParts tokens idxTokens =
        Except.ok (specSelected tokens idxTokens) := by
  intro idxTokens
  induction idxTokens with
  | nil => intro _; rfl
  | cons t rest ih =>
    intro hb
    have hbt : digitsToNat t ≤ 2147483647 := hb t (List.mem_cons_self _ _)
    have hok : stoiDigits t = Except.ok (digitsToNat t : Int) := by
      unfold stoiDigits
      rw [if_pos hbt]
    unfold selectParts
    simp only [hok, ih (fun x hx => hb x (List.mem_cons_of_mem _ hx))]
    rw [specSelected]
    by_cases hc : 1 ≤ digitsToNat t ∧ digitsToNat t ≤ tokens.length
    · have hcond2 : 0 ≤ (digitsToNat t : Int) - 1 ∧
          (digitsToNat t : Int) - 1 < (tokens.length : Int) := by
        obtain ⟨h1, h2⟩ := hc
        omega
      have hidx : ((digitsToNat t : Int) - 1).toNat = digitsToNat t - 1 := by
        omega
      rw [if_pos hcond2, if_pos hc, hidx]
    · have hcond2 : ¬(0 ≤ (digitsToNat t : Int) - 1 ∧
          (digitsToNat t : Int) - 1 < (tokens.length : Int)) := by
        intro hcc
        exact hc (by omega)
      rw [if_neg hcond2, if_neg hc]

theorem fileStep_no_nil {cfg : Config}
    {search : List Char → List Char → Bool} {st st' : FileState}
    {ev : Nat × List Char} (h : fileStep cfg search st ev = Except.ok st')
    (h1 : [] ∉ st.outs) : [] ∉ st'.outs := by
  unfold fileStep at h
  cases hp : processLine cfg search ev.2 with
  | error e => rw [hp] at h; exact absurd h (by simp)
  | ok processed =>
    rw [hp] at h
    simp only at h
    by_cases hemp : processed = []
    · rw [if_pos hemp] at h; cases h; exact h1
    · rw [if_neg hemp] at h
      by_cases hloc : processed ∈ st.locals ev.1
      · rw [if_pos hloc] at h; cases h; exact h1
      · rw [if_neg hloc] at h
        by_cases hglob : processed ∈ st.globalDups
        · rw [if_pos hglob] at h; cases h; exact h1
        · rw [if_neg hglob] at h
          cases h
          intro hmem
          simp only [List.mem_append, List.mem_singleton] at hmem
          rcases hmem with hm | hm
          · exact h1 hm
          · exact hemp hm.symm

theorem runEvents_no_nil (cfg : Config)
    (search : List Char → List Char → Bool) :
    ∀ (evs : List (Nat × List Char)) (st : FileState),
      [] ∉ st.outs → [] ∉ (runEvents cfg search evs st).1.outs := by
  intro evs
  induction evs with
  | nil => intro st h1; exact h1
  | cons ev rest ih =>
    intro st h1
    unfold runEvents
    cases hs : fileStep cfg search st ev with
    | error e => exact h1
    | ok st' => exact ih st' (fileStep_no_nil hs h1)

/-- C7 (amended): when `convert_format` splits into a non-empty list of pure
digit tokens whose values all fit in a 32-bit `int`, `processLine` returns
normally, and an accepted record's output is exactly the trimmed tokens at
those 1-based indices of the original token list, in the listed order, joined
with the separator, with out-of-range indices silently skipped; the empty
output is never pushed to the output queue.  (Without the `int` bound the
original claim fails: `std::stoi` throws.) -/
theorem claim_C7_amended_numeric_convert :
    (∀ (cfg : Config) (search : List Char → List Char → Bool)
        (line : List Char),
      (∀ t ∈ split cfg.convert_format cfg.separator,
        t ≠ [] ∧ ∀ c ∈ t, c.isDigit = true) →
      (∀ t ∈ split cfg.convert_format cfg.separator,
        digitsToNat t ≤ 2147483647) →
      ∃ out, processLine cfg search line = Except.ok out ∧
        (out ≠ [] →
          out = join (specSelected (split line cfg.separator)
            (split cfg.convert_format cfg.separator)) cfg.separator)) ∧
    (∀ (cfg : Config) (search : List Char → List Char → Bool)
        (events : List (Nat × List Char)),
      [] ∉ processFile cfg search events) := by
  constructor
  · intro cfg search line hdig hbound
    rcases processLine_shape cfg search line with h | ⟨u, l, p, -, -, -, heq⟩
    · exact ⟨[], h, fun hne => absurd rfl hne⟩
    · have hcond : (!(split cfg.convert_format cfg.separator).isEmpty &&
          (split cfg.convert_format cfg.separator).all
            (fun s => !s.isEmpty && s.all Char.isDigit)) = true := by
        rw [Bool.and_eq_true]
        constructor
        · cases hsp : split cfg.convert_format cfg.separator with
          | nil => exact absurd hsp (split_ne_nil _ _)
          | cons a tl => rfl
        · rw [List.all_eq_true]
          intro t ht
          obtain ⟨htne, htdig⟩ := hdig t ht
          rw [Bool.and_eq_true]
          refine ⟨?_, List.all_eq_true.mpr htdig⟩
          cases t with
          | nil => exact absurd rfl htne
          | cons c cs => rfl
      have hsel := selectParts_spec (split line cfg.separator)
        (split cfg.convert_format cfg.separator) hbound
      refine ⟨join (specSelected (split line cfg.separator)
        (split cfg.convert_format cfg.separator)) cfg.separator,
        ?_, fun _ => rfl⟩
      rw [heq]
      unfold buildOutput
      rw [if_pos hcond, hsel]
  · intro cfg search events
    exact runEvents_no_nil cfg search events initFileState (by simp [initFileState])

/-- C7 fails as stated: with the all-digit `convert_format` token
`9999999999` (value above `INT_MAX`), the out-of-range index is not silently
skipped — `std::stoi` throws and the exception escapes `processLine`. -/
theorem claim_C7_counterexample :
    (∀ t ∈ split cfgConvOverflow.convert_format cfgConvOverflow.separator,
      t ≠ [] ∧ ∀ c ∈ t, c.isDigit = true) ∧
    processLine cfgConvOverflow noSearch ("a@b.cd:pw".data) =
      Except.error () := by
  exact ⟨by decide, by decide⟩

theorem claim_C7_witness :
    ∃ out, processLine cfgConvCols noSearch ("x.com:e@d.co:pw".data) =
        Except.ok out ∧
      (out ≠ [] →
        out = join (specSelected
          (split ("x.com:e@d.co:pw".data) cfgConvCols.separator)
          (split cfgConvCols.convert_format cfgConvCols.separator))
          cfgConvCols.separator) :=
  claim_C7_amended_numeric_convert.1 cfgConvCols noSearch
    ("x.com:e@d.co:pw".data) (by decide) (by decide)

end Ulp

namespace Ulp

/-! ### Structure of the URL host shape -/

theorem splitOnDot_ne_nil (s : List Char) : splitOnDot s ≠ [] := by
  cases s with
  | nil => simp [splitOnDot]
  | cons c rest =>
    unfold splitOnDot
    by_cases hc : c = '.'
    · rw [if_pos hc]; simp
    · rw [if_neg hc]
      cases splitOnDot rest with
      | nil => simp
      | cons seg segs => simp

theorem joinDots_splitOnDot (s : List Char) :
    joinDots (splitOnDot s) = s := by
  induction s with
  | nil => rfl
  | cons c rest ih =>
    unfold splitOnDot
    by_cases hc : c = '.'
    · rw [if_pos hc]
      subst hc
      cases hsp : splitOnDot rest with
      | nil => exact absurd hsp (splitOnDot_ne_nil rest)
      | cons seg segs =>
        rw [joinDots, ← hsp, ih]
        rfl
    · rw [if_neg hc]
      cases hsp : splitOnDot rest with
      | nil => exact absurd hsp (splitOnDot_ne_nil rest)
      | cons seg segs =>
        cases segs with
        | nil =>
          rw [joinDots]
          have hr : joinDots (splitOnDot rest) = rest := ih
          rw [hsp, joinDots] at hr
          rw [hr]
        | cons seg2 segs2 =>
          rw [joinDots]
          have hr : joinDots (splitOnDot rest) = rest := ih
          rw [hsp, joinDots] at hr
          rw [← hr]
          rfl

theorem mem_joinDots :
    ∀ (segs : List (List Char)) {c : Char}, c ∈ joinDots segs →
      (∃ l ∈ segs, c ∈ l) ∨ c = '.' := by
  intro segs
  induction segs with
  | nil => intro c hc; simp [joinDots] at hc
  | cons l ls ih =>
    intro c hc
    cases ls with
    | nil =>
      rw [joinDots] at hc
      exact Or.inl ⟨l, by simp, hc⟩
    | cons l2 ls2 =>
      rw [joinDots] at hc
      rcases List.mem_append.mp hc with h | h
      · exact Or.inl ⟨l, by simp, h⟩
      · rcases List.mem_cons.mp h with h | h
        · exact Or.inr h
        · rcases ih h with ⟨l', hl', hcl'⟩ | h
          · exact Or.inl ⟨l', List.mem_cons_of_mem _ hl', hcl'⟩
          · exact Or.inr h

theorem mem_dropLast_or_getLastD :
    ∀ (segs : List (List Char)) (l : List Char), l ∈ segs →
      l ∈ segs.dropLast ∨ l = segs.getLastD [] := by
  intro segs
  induction segs with
  | nil => intro l h; cases h
  | cons x xs ih =>
    intro l h
    cases xs with
    | nil =>
      right
      have : l = x := by simpa using h
      simp [this, List.getLastD]
    | cons y ys =>
      rcases List.mem_cons.mp h with h | h
      · left
        rw [List.dropLast_cons₂]
        exact h ▸ List.mem_cons_self _ _
      · rcases ih l h with h2 | h2
        · left
          rw [List.dropLast_cons₂]
          exact List.mem_cons_of_mem _ h2
        · right
          rw [List.getLastD_cons] at h2
          rw [List.getLastD_cons, List.getLastD_cons]
          exact h2

theorem isAlpha_isHostChar {c : Char} (h : c.isAlpha = true) :
    isHostChar c = true := by
  simp [isHostChar, isWordChar, h]

theorem hostShape_chars {h : List Char} (hh : hostShape h = true) :
    ∀ c ∈ h, hostCharOrDot c = true := by
  unfold hostShape at hh
  simp only [Bool.and_eq_true, decide_eq_true_eq, List.all_eq_true] at hh
  obtain ⟨⟨⟨-, hdrop⟩, -⟩, hlast⟩ := hh
  intro c hc
  rw [← joinDots_splitOnDot h] at hc
  rcases mem_joinDots _ hc with ⟨l, hl, hcl⟩ | hdot
  · rcases mem_dropLast_or_getLastD _ l hl with hdl | hlst
    · unfold hostCharOrDot
      rw [(hdrop l hdl).2 c hcl]
      rfl
    · subst hlst
      unfold hostCharOrDot
      rw [isAlpha_isHostChar (hlast c hcl)]
      rfl
  · subst hdot
    simp [hostCharOrDot]

theorem hostShape_urlShape {h : List Char} (hh : hostShape h = true) :
    urlShape h = true := by
  have hchars : ∀ c ∈ h, hostCharOrDot c = true := hostShape_chars hh
  have htw : h.takeWhile hostCharOrDot = h := by
    rw [List.takeWhile_eq_self_iff]
    intro x hx
    exact hchars x hx
  have hpp : hostPortPath h = true := by
    unfold hostPortPath
    rw [htw, List.drop_length]
    rw [Bool.and_eq_true]
    exact ⟨hh, rfl⟩
  unfold urlShape
  rw [hpp]
  simp

/-! ### The greedy host matcher produces host-shaped infixes -/

theorem splitOnDot_dotfree {s : List Char} (h : ∀ c ∈ s, ¬ (c = '.')) :
    splitOnDot s = [s] := by
  induction s with
  | nil => rfl
  | cons c rest ih =>
    unfold splitOnDot
    rw [if_neg (h c (List.mem_cons_self _ _))]
    rw [ih (fun x hx => h x (List.mem_cons_of_mem _ hx))]

theorem splitOnDot_append_dot {xs : List Char} (ys : List Char)
    (h : ∀ c ∈ xs, ¬ (c = '.')) :
    splitOnDot (xs ++ '.' :: ys) = xs :: splitOnDot ys := by
  induction xs with
  | nil =>
    rw [List.nil_append, splitOnDot]
    rw [if_pos rfl]
  | cons x xs ih =>
    rw [List.cons_append, splitOnDot]
    rw [if_neg (h x (List.mem_cons_self _ _))]
    rw [ih (fun c hc => h c (List.mem_cons_of_mem _ hc))]

theorem splitOnDot_join_labels :
    ∀ (labels : List (List Char)) (T : List Char),
      (∀ l ∈ labels, ∀ c ∈ l, ¬ (c = '.')) → (∀ c ∈ T, ¬ (c = '.')) →
      splitOnDot ((labels.map (fun l => l ++ ['.'])).join ++ T) =
        labels ++ [T] := by
  intro labels
  induction labels with
  | nil =>
    intro T hlb hT
    simp only [List.map_nil, List.join_nil, List.nil_append]
    exact splitOnDot_dotfree hT
  | cons l ls ih =>
    intro T hlb hT
    have hstep : ((l :: ls).map (fun l => l ++ ['.'])).join ++ T =
        l ++ '.' :: (((ls.map (fun l => l ++ ['.'])).join) ++ T) := by
      simp [List.append_assoc]
    rw [hstep]
    rw [splitOnDot_append_dot _ (hlb l (List.mem_cons_self _ _))]
    rw [ih T (fun l' hl' => hlb l' (List.mem_cons_of_mem _ hl')) hT]
    rfl

theorem labelStep_some {s : List Char} {d : Nat} (h : labelStep s = some d) :
    0 < (s.takeWhile isHostChar).length ∧
    d = (s.takeWhile isHostChar).length + 1 ∧
    s.take d = s.takeWhile isHostChar ++ ['.'] := by
  unfold labelStep at h
  by_cases hc : 0 < (s.takeWhile isHostChar).length ∧
      s[(s.takeWhile isHostChar).length]? = some '.'
  · rw [if_pos hc] at h
    obtain ⟨hk, hdot⟩ := hc
    injection h with hd
    refine ⟨hk, hd.symm, ?_⟩
    rw [← hd, List.take_succ, hdot]
    have htk : s.takeWhile isHostChar =
        s.take (s.takeWhile isHostChar).length :=
      List.prefix_iff_eq_take.mp (List.takeWhile_prefix _)
    rw [← htk]
    rfl
  · rw [if_neg hc] at h
    cases h

theorem repEndsAux_labels :
    ∀ (fuel : Nat) (s : List Char) (p : Nat), p ∈ repEndsAux fuel s →
      ∃ labels : List (List Char), labels ≠ [] ∧
        (∀ l ∈ labels, l ≠ [] ∧ ∀ c ∈ l, isHostChar c = true) ∧
        s.take p = (labels.map (fun l => l ++ ['.'])).join := by
  intro fuel
  induction fuel with
  | zero => intro s p hp; cases hp
  | succ n ih =>
    intro s p hp
    unfold repEndsAux at hp
    cases hls : labelStep s with
    | none => rw [hls] at hp; cases hp
    | some d =>
      rw [hls] at hp
      obtain ⟨hk, hd, htake⟩ := labelStep_some hls
      have htw_all : ∀ c ∈ s.takeWhile isHostChar, isHostChar c = true := by
        intro c hc
        simpa using List.mem_takeWhile_imp hc
      have htw_ne : s.takeWhile isHostChar ≠ [] := by
        intro hnil
        rw [hnil] at hk
        simp at hk
      rcases List.mem_cons.mp hp with hpd | hpmem
      · subst hpd
        refine ⟨[s.takeWhile isHostChar], by simp, ?_, ?_⟩
        · intro l hl
          rw [List.mem_singleton] at hl
          subst hl
          exact ⟨htw_ne, htw_all⟩
        · rw [htake]
          simp
      · rcases List.mem_map.mp hpmem with ⟨p', hp', hpd⟩
        obtain ⟨labels', hne', hchars', htake'⟩ := ih (s.drop d) p' hp'
        refine ⟨s.takeWhile isHostChar :: labels', by simp, ?_, ?_⟩
        · intro l hl
          rcases List.mem_cons.mp hl with rfl | hl
          · exact ⟨htw_ne, htw_all⟩
          · exact hchars' l hl
        · rw [← hpd, Nat.add_comm p' d, List.take_add, htake, htake']
          simp [List.append_assoc]

theorem hostShape_append_labels {labels : List (List Char)} {T : List Char}
    (hne : labels ≠ [])
    (hchars : ∀ l ∈ labels, l ≠ [] ∧ ∀ c ∈ l, isHostChar c = true)
    (hT2 : 2 ≤ T.length) (hTa : ∀ c ∈ T, c.isAlpha = true) :
    hostShape ((labels.map (fun l => l ++ ['.'])).join ++ T) = true := by
  have hsd : splitOnDot ((labels.map (fun l => l ++ ['.'])).join ++ T) =
      labels ++ [T] := by
    apply splitOnDot_join_labels
    · intro l hl c hc hceq
      have := (hchars l hl).2 c hc
      rw [hceq] at this
      exact absurd this (by decide)
    · intro c hc hceq
      have := hTa c hc
      rw [hceq] at this
      exact absurd this (by decide)
  unfold hostShape
  rw [hsd]
  simp only [Bool.and_eq_true, decide_eq_true_eq, List.all_eq_true]
  have hlen1 : 1 ≤ labels.length := by
    cases labels with
    | nil => exact absurd rfl hne
    | cons a l => simp
  refine ⟨⟨⟨?_, ?_⟩, ?_⟩, ?_⟩
  · simp only [List.length_append, List.length_cons, List.length_nil]
    omega
  · intro l hl
    rw [List.dropLast_concat] at hl
    exact hchars l hl
  · rw [List.getLastD_concat]
    exact hT2
  · rw [List.getLastD_concat]
    exact hTa

theorem hostGreedy_spec {s h : List Char} (hg : hostGreedy s = some h) :
    hostShape h = true ∧ h <+: s := by
  unfold hostGreedy at hg
  cases hlast : ((repEnds s).filter
      (fun p => decide (2 ≤ alphaRunLen (s.drop p)))).getLast? with
  | none => rw [hlast] at hg; cases hg
  | some p =>
    rw [hlast] at hg
    simp only [Option.map_some', Option.some.injEq] at hg
    subst hg
    have hpmem : p ∈ (repEnds s).filter
        (fun p => decide (2 ≤ alphaRunLen (s.drop p))) :=
      List.mem_of_getLast?_eq_some hlast
    rw [List.mem_filter] at hpmem
    obtain ⟨hpr, hpa⟩ := hpmem
    rw [decide_eq_true_eq] at hpa
    have hpr2 : p ∈ repEndsAux (s.length + 1) s := hpr
    obtain ⟨labels, hne, hchars, htake⟩ := repEndsAux_labels _ s p hpr2
    have hTtake : (s.drop p).take (alphaRunLen (s.drop p)) =
        (s.drop p).takeWhile Char.isAlpha := by
      unfold alphaRunLen
      exact (List.prefix_iff_eq_take.mp (List.takeWhile_prefix _)).symm
    have hhsplit : s.take (p + alphaRunLen (s.drop p)) =
        (labels.map (fun l => l ++ ['.'])).join ++
          (s.drop p).takeWhile Char.isAlpha := by
      rw [List.take_add, hTtake, htake]
    constructor
    · rw [hhsplit]
      apply hostShape_append_labels hne hchars
      · unfold alphaRunLen at hpa
        exact hpa
      · intro c hc
        simpa using List.mem_takeWhile_imp hc
    · exact List.take_prefix _ _

theorem tryMatchAt_spec {s h : List Char} (ht : tryMatchAt s = some h) :
    hostShape h = true ∧ h <:+: s := by
  have hdropinf : ∀ (k : Nat), hostGreedy (s.drop k) = some h →
      hostShape h = true ∧ h <:+: s := by
    intro k hg
    obtain ⟨hs, hp⟩ := hostGreedy_spec hg
    refine ⟨hs, ?_⟩
    obtain ⟨r, hr⟩ := hp
    obtain ⟨q, hq⟩ := List.drop_suffix k s
    exact ⟨q, r, by rw [List.append_assoc, hr, hq]⟩
  unfold tryMatchAt at ht
  by_cases h8 : ("https://".data).isPrefixOf s
  · rw [if_pos h8] at ht
    exact hdropinf 8 ht
  · rw [if_neg h8] at ht
    by_cases h7 : ("http://".data).isPrefixOf s
    · rw [if_pos h7] at ht
      exact hdropinf 7 ht
    · rw [if_neg h7] at ht
      exact hdropinf 0 ht

theorem findHost_spec :
    ∀ (u : List Char) {h : List Char}, findHost u = some h →
      hostShape h = true ∧ h <:+: u := by
  intro u
  induction u with
  | nil => intro h hf; exact absurd hf (by simp [findHost])
  | cons c rest ih =>
    intro h hf
    unfold findHost at hf
    cases htm : tryMatchAt (c :: rest) with
    | some h2 =>
      simp only [htm, Option.some.injEq] at hf
      subst hf
      exact tryMatchAt_spec htm
    | none =>
      simp only [htm] at hf
      obtain ⟨hs, hinf⟩ := ih hf
      exact ⟨hs, List.infix_cons hinf⟩

theorem noUrlShapeSub_spec {u : List Char} (h : noUrlShapeSub u = true) :
    ∀ sub, sub <:+: u → urlShape sub = false := by
  intro sub hsub
  unfold noUrlShapeSub at h
  rw [List.all_eq_true] at h
  obtain ⟨t, hpre, hsuf⟩ := List.infix_iff_prefix_suffix.mp hsub
  have ht := h t ((List.mem_tails t u).mpr hsuf)
  rw [List.all_eq_true] at ht
  have hs := ht sub ((List.mem_inits sub t).mpr hpre)
  simpa using hs

theorem domainMatches_nil {p : List Char} (h : p ≠ []) :
    domainMatches [] p = false := by
  unfold domainMatches
  rw [if_neg (fun hc => h hc.symm)]
  rw [if_neg ?_]
  · rintro ⟨h1, -, -⟩
    simp at h1

/-- C9 (amended): when no substring of the url field matches the URL shape,
`extractUrlDomain` returns the empty string, and — provided the empty string
is not itself among the patterns — the url domain check then rejects the
record exactly when `url_contains` is non-empty. -/
theorem claim_C9_amended_unmatched_url :
    ∀ (url : List Char) (rs cs : List (List Char)),
      noUrlShapeSub url = true → [] ∉ rs → [] ∉ cs →
      extractUrlDomain url = [] ∧
      (checkDomain (extractUrlDomain url) rs cs = false ↔ cs ≠ []) := by
  intro url rs cs hno hrs hcs
  have hfind : findHost url = none := by
    cases hf : findHost url with
    | none => rfl
    | some h =>
      obtain ⟨hshape, hinf⟩ := findHost_spec url hf
      have hurl : urlShape h = true := hostShape_urlShape hshape
      have hfalse := noUrlShapeSub_spec hno h hinf
      rw [hurl] at hfalse
      cases hfalse
  have hext : extractUrlDomain url = [] := by
    unfold extractUrlDomain
    rw [hfind]
  rw [hext]
  refine ⟨rfl, ?_⟩
  have hany_rs : ¬ (rs.any (fun r => domainMatches [] r) = true) := by
    intro hany
    rw [List.any_eq_true] at hany
    obtain ⟨r, hr, hdm⟩ := hany
    have hrne : r ≠ [] := fun hre => hrs (hre ▸ hr)
    rw [domainMatches_nil hrne] at hdm
    cases hdm
  unfold checkDomain
  rw [if_neg hany_rs]
  by_cases hc : cs = []
  · rw [if_pos hc]
    subst hc
    constructor
    · intro hcc; cases hcc
    · intro hne; exact absurd rfl hne
  · rw [if_neg hc]
    constructor
    · intro _; exact hc
    · intro _
      cases hany : cs.any (fun c => domainMatches [] c)
      · rfl
      · rw [List.any_eq_true] at hany
        obtain ⟨c, hcmem, hdm⟩ := hany
        have hcne : c ≠ [] := fun hce => hcs (hce ▸ hcmem)
        rw [domainMatches_nil hcne] at hdm
        cases hdm

/-- C9 fails as stated: with the empty string among the `url_contains`
patterns, a record whose url field (`localhost`) matches no URL shape is NOT
rejected although `url_contains` is non-empty — the empty extracted domain
matches the empty pattern. -/
theorem claim_C9_counterexample :
    noUrlShapeSub ("localhost".data) = true ∧
    ([[]] : List (List Char)) ≠ [] ∧
    checkDomain (extractUrlDomain ("localhost".data)) [] [[]] = true := by
  exact ⟨by decide, by decide, by decide⟩

theorem claim_C9_witness :
    extractUrlDomain ("abc".data) = [] ∧
    (checkDomain (extractUrlDomain ("abc".data))
        ["ru".data] ["gmail.com".data] = false ↔
      (["gmail.com".data] : List (List Char)) ≠ []) :=
  claim_C9_amended_unmatched_url ("abc".data) ["ru".data] ["gmail.com".data]
    (by decide) (by decide) (by decide)

end Ulp

namespace Ulp

theorem findSub_isSome_iff :
    ∀ (t p : List Char), (findSub t p).isSome = true ↔ p <:+: t := by
  intro t
  induction t with
  | nil =>
    intro p
    unfold findSub
    by_cases hp : p.isPrefixOf ([] : List Char)
    · rw [if_pos hp]
      have hpe : p = [] := by
        have := List.isPrefixOf_iff_prefix.mp hp
        simpa using this
      subst hpe
      simp
    · rw [if_neg hp]
      simp only [Option.isSome_none]
      constructor
      · intro h; cases h
      · intro hinf
        obtain ⟨s1, t1, hst⟩ := hinf
        have hp0 : p = [] := by
          have hlen := congrArg List.length hst
          simp only [List.length_append, List.length_nil] at hlen
          exact List.length_eq_zero.mp (by omega)
        subst hp0
        exact (hp rfl).elim
  | cons c rest ih =>
    intro p
    unfold findSub
    by_cases hp : p.isPrefixOf (c :: rest)
    · rw [if_pos hp]
      simp only [Option.isSome_some, true_iff]
      exact (List.isPrefixOf_iff_prefix.mp hp).isInfix
    · rw [if_neg hp]
      rw [Option.isSome_map']
      rw [ih p]
      constructor
      · exact List.infix_cons
      · intro hinf
        rcases List.infix_cons_iff.mp hinf with hpre | hinf2
        · exact absurd (List.isPrefixOf_iff_prefix.mpr hpre) hp
        · exact hinf2

end Ulp

namespace EmailFilter

/-- C10: in filter.cpp a domain matches a filter pattern whenever the pattern
occurs as a substring anywhere in it (`text.find(pattern) != npos`), not only
as an exact match or label-boundary suffix; so in remove mode pattern
`xample.com` removes an email with domain `mail.example.com`, and in contains
mode it keeps that email. -/
theorem claim_C10_substring_filter :
    (∀ (text : List Char) (ps : List (List Char)),
      containsPattern text ps = true ↔ ∃ p ∈ ps, p <:+: text) ∧
    processEmailFile ["xample.com".data] 'r'
      ["u@mail.example.com".data] = [] ∧
    processEmailFile ["xample.com".data] 'c'
      ["u@mail.example.com".data] = ["u@mail.example.com".data] := by
  refine ⟨?_, by decide, by decide⟩
  intro text ps
  unfold containsPattern
  rw [List.any_eq_true]
  constructor
  · rintro ⟨p, hp, hs⟩
    exact ⟨p, hp, (Ulp.findSub_isSome_iff text p).mp hs⟩
  · rintro ⟨p, hp, hinf⟩
    exact ⟨p, hp, (Ulp.findSub_isSome_iff text p).mpr hinf⟩

end EmailFilter
